import Mathlib

/-!
Verification of the `thinker_http.py` reasoning pipeline (hyperifyio/gendo).

The Python program orchestrates a generate → critique/refine → judge pipeline
over a remote chat service.  We give a shallow embedding of its pure parsing
and aggregation logic, and model every remote chat interaction by an explicit
outcome value (`ChatOutcome`): the code's `try/except` boundaries become
`match`es on those outcomes, and an uncaught Python exception becomes the
`Except.error` constructor of the orchestrator's result type.

Strings are modelled as `List Char` internally (`String` at the interfaces);
Python's `\s` whitespace class, `str.strip`, `re.sub(r'\s+', ' ', ·)` and the
ASCII-case-insensitive matching done by `re.IGNORECASE` are reproduced
character by character.
-/

namespace Gendo

/-- Python's `\s` / `str.strip` whitespace class restricted to ASCII:
space, tab, newline, carriage return, vertical tab, form feed. -/
def isSpace (c : Char) : Bool :=
  c == ' ' || c == '\t' || c == '\n' || c == '\r' || c == '\x0b' || c == '\x0c'

/-- ASCII upper-casing, as used for case-insensitive comparisons. -/
def toUp (c : Char) : Char := c.toUpper

/-- ASCII lower-casing, modelling Python's `str.lower`. -/
def toLow (c : Char) : Char := c.toLower

/-- The characters removed by `re.sub(r'[*_`]', '', ·)` in `parse_candidate`:
asterisk, underscore, backtick. -/
def isMarkup (c : Char) : Bool :=
  c == '*' || c == '_' || c == '\x60'

/-- Drop trailing whitespace; structural-recursion form of the right half of
Python's `str.strip`. -/
def stripTrailing : List Char → List Char
  | [] => []
  | c :: cs =>
    match stripTrailing cs with
    | [] => if isSpace c then [] else [c]
    | r => c :: r

/-- Python's `str.strip()` on a character list. -/
def stripList (cs : List Char) : List Char :=
  stripTrailing (cs.dropWhile isSpace)

/-- One pass of `re.sub(r'\s+', ' ', ·)`: the flag records whether we are
inside a whitespace run whose single replacement `' '` was already emitted. -/
def collapseGo : Bool → List Char → List Char
  | _, [] => []
  | inRun, c :: cs =>
    if isSpace c then
      if inRun then collapseGo true cs else ' ' :: collapseGo true cs
    else
      c :: collapseGo false cs

/-- Python's `re.sub(r'\s+', ' ', ·)`: collapse every whitespace run to a
single space. -/
def collapseWs (cs : List Char) : List Char := collapseGo false cs

/-- `startswith` on character lists (exact characters). -/
def startsSeq : List Char → List Char → Bool
  | [], _ => true
  | _ :: _, [] => false
  | p :: ps, c :: cs => (c == p) && startsSeq ps cs

/-- Case-insensitive "starts with": `needle` is given in its canonical
upper-case spelling, the scanned text is folded with `toUp`. -/
def ciStartsWith : List Char → List Char → Bool
  | [], _ => true
  | _ :: _, [] => false
  | l :: ls, c :: cs => (toUp c == l) && ciStartsWith ls cs

/-- The reasoning label of `CAND_RE`: `(?:THOUGHT|REASONING):` case-insensitively,
returning the number of characters the label consumes. -/
def thoughtLabelAt (cs : List Char) : Option Nat :=
  if ciStartsWith "THOUGHT:".data cs then some 8
  else if ciStartsWith "REASONING:".data cs then some 10
  else none

/-- The conclusion label of `CAND_RE`: `(?:ANSWER|CONCLUSION):` case-insensitively,
returning the number of characters the label consumes. -/
def answerLabelAt (cs : List Char) : Option Nat :=
  if ciStartsWith "ANSWER:".data cs then some 7
  else if ciStartsWith "CONCLUSION:".data cs then some 11
  else none

/-- Leftmost occurrence of a conclusion label: position together with the
label's length.  This realizes the lazy `(.*?)\s*(?:ANSWER|CONCLUSION):` part
of `CAND_RE`: the lazy group stops at the first conclusion label. -/
def findAnswerLabel : List Char → Option (Nat × Nat)
  | [] => none
  | c :: cs =>
    match answerLabelAt (c :: cs) with
    | some len => some (0, len)
    | none =>
      match findAnswerLabel cs with
      | some (i, len) => some (i + 1, len)
      | none => none

/-- `CAND_RE.search`: scan for the leftmost position carrying a reasoning
label that is followed (anywhere later) by a conclusion label; return the raw
text of the two captured spans (group boundaries up to surrounding whitespace,
which the subsequent `strip`/collapse normalization erases anyway). -/
def searchCand : List Char → Option (List Char × List Char)
  | [] => none
  | c :: cs =>
    match thoughtLabelAt (c :: cs) with
    | some len =>
      match findAnswerLabel ((c :: cs).drop len) with
      | some (j, len2) =>
        some (((c :: cs).drop len).take j, ((c :: cs).drop len).drop (j + len2))
      | none => searchCand cs
    | none => searchCand cs

/-- Python's `text.split('\n\n')`: split on non-overlapping occurrences of a
blank line, scanning left to right. -/
def splitOnNN : List Char → List (List Char)
  | [] => [[]]
  | '\n' :: '\n' :: rest => [] :: splitOnNN rest
  | c :: rest =>
    match splitOnNN rest with
    | [] => [[c]]
    | h :: t => (c :: h) :: t

/-- Python's `verdict.split('\n')`. -/
def splitOnNL : List Char → List (List Char)
  | [] => [[]]
  | '\n' :: rest => [] :: splitOnNL rest
  | c :: rest =>
    match splitOnNL rest with
    | [] => [[c]]
    | h :: t => (c :: h) :: t

/-- A parsed draft solution: `{'thought': …, 'answer': …, 'raw': …}`. -/
structure Candidate where
  thought : String
  answer : String
  raw : String
deriving DecidableEq, Repr

/-- The canonical re-serialization `f"THOUGHT:\n{thought}\n\nANSWER:\n{answer}"`. -/
def mkRaw (thought answer : String) : String :=
  "THOUGHT:\n" ++ thought ++ "\n\nANSWER:\n" ++ answer

/-- `strip()` then whitespace collapse applied to a captured span, packaged as
a `String`; this is the `re.sub(r'\s+', ' ', m.group(k).strip())` step. -/
def normSpan (cs : List Char) : String :=
  String.mk (collapseWs (stripList cs))

/-- Build the result dictionary of `parse_candidate` from the two captured spans. -/
def mkCand (g1 g2 : List Char) : Candidate :=
  let th := normSpan g1
  let an := normSpan g2
  { thought := th, answer := an, raw := mkRaw th an }

/-- `f"THOUGHT: {parts[i]}\nANSWER: {parts[i+1]}"` of the fallback loop. -/
def combinePair (p1 p2 : List Char) : List Char :=
  "THOUGHT: ".data ++ p1 ++ "\nANSWER: ".data ++ p2

/-- The fallback loop of `parse_candidate`: try each adjacent pair of
blank-line-separated segments, first match wins. -/
def tryPairs : List (List Char) → Option (List Char × List Char)
  | p1 :: p2 :: rest =>
    match searchCand (combinePair p1 p2) with
    | some r => some r
    | none => tryPairs (p2 :: rest)
  | _ => none

/-- `parse_candidate(text)`: strip the text, delete emphasis markup, try the
direct `CAND_RE` search, then the blank-line fallback; `None` becomes `none`. -/
def parse_candidate (text : String) : Option Candidate :=
  let t := (stripList text.data).filter (fun c => !isMarkup c)
  match searchCand t with
  | some (g1, g2) => some (mkCand g1 g2)
  | none =>
    match tryPairs (splitOnNN t) with
    | some (g1, g2) => some (mkCand g1 g2)
    | none => none

/-- `normalize_critic`: `re.sub(r'[^a-zA-Z0-9]', '', text).upper()`. -/
def isAsciiAlnum (c : Char) : Bool :=
  ('a' ≤ c && c ≤ 'z') || ('A' ≤ c && c ≤ 'Z') || ('0' ≤ c && c ≤ '9')

/-- Normalized critic response: keep ASCII alphanumerics, upper-case them. -/
def normalize_critic (s : String) : String :=
  String.mk ((s.data.filter isAsciiAlnum).map toUp)

/-- Outcome of one `chat` call against the remote service: either the
completion text, or a raised exception (`TransportError` / malformed body). -/
inductive ChatOutcome where
  | err : ChatOutcome
  | ok : String → ChatOutcome
deriving DecidableEq, Repr

/-- The keyword list of `check_semantic_consistency` used to classify the
question as a truth-assessment task. -/
def truthKeywords : List String :=
  ["prove", "show", "is it true", "true or false", "determine whether",
   "verify", "check if", "confirm", "validate"]

/-- Python's substring operator `needle in hay` on character lists. -/
def containsSeq (needle : List Char) : List Char → Bool
  | [] => startsSeq needle []
  | c :: cs => startsSeq needle (c :: cs) || containsSeq needle cs

/-- `any(phrase in question.lower() for phrase in [...])`. -/
def is_truth_assessment (question : String) : Bool :=
  truthKeywords.any (fun k => containsSeq k.data (question.data.map toLow))

/-- `response.strip().upper().startswith("YES")`. -/
def starts_yes (response : String) : Bool :=
  startsSeq "YES".data ((stripList response.data).map toUp)

/-- `check_semantic_consistency(question, answer)` given the remote response:
returns `(is_consistent, response)`.  The task classification decides only the
wording of the outbound prompt; the returned flag depends on the response
alone.  A transport failure is an exception and is handled at the call site
(see `generate_one`). -/
def check_semantic_consistency (question answer response : String) : Bool × String :=
  let _ := is_truth_assessment question
  let _ := answer
  (starts_yes response, response)

/-- Everything the remote service contributes to a single generation task:
either its `chat` call raises, or it returns text; and when the parsed
candidate reaches the consistency check, that check's own `chat` call either
raises or returns a response. -/
inductive TaskOutcome where
  | genErr : TaskOutcome
  | genOk : String → ChatOutcome → TaskOutcome
deriving DecidableEq, Repr

/-- One generation task (`generate_one` inside `generate_candidates`): parse
the completion, drop it on parse failure, run the consistency check, drop on
inconsistency; every exception is caught at the task boundary and becomes
`none`. -/
def generate_one (question : String) : TaskOutcome → Option Candidate
  | .genErr => none
  | .genOk txt consOut =>
    match parse_candidate txt with
    | none => none
    | some cand =>
      match consOut with
      | .err => none
      | .ok resp =>
        if (check_semantic_consistency question cand.answer resp).1 then some cand
        else none

/-- `generate_candidates`: `N_CANDIDATES` tasks are submitted in index order
and collected by iterating the futures list in that same order, keeping the
non-`None` results. -/
def generate_candidates (n : Nat) (question : String)
    (tasks : Nat → TaskOutcome) : List Candidate :=
  ((List.range n).map (fun i => generate_one question (tasks i))).filterMap id

/-- The value stored by the thread pool for one submitted task: the pool's
completion log pairs each task index with that task's result.  `f.result()`
looks the future's own index up in the log, whatever order tasks finished in. -/
def future_result (log : List (Nat × Option Candidate)) (i : Nat) : Option Candidate :=
  match log.find? (fun p => p.1 == i) with
  | some p => p.2
  | none => none

/-- `generate_candidates` as actually run on the pool: iterate the futures in
submission order, read each result from the completion log, keep non-`None`s. -/
def generate_candidates_pool (n : Nat) (log : List (Nat × Option Candidate)) :
    List Candidate :=
  ((List.range n).map (future_result log)).filterMap id

/-- `refine(cand, critic)`: one refinement `chat` call; a parse failure keeps
the original candidate (`new_cand or cand`); a raised exception propagates. -/
def refine (cand : Candidate) (refOut : ChatOutcome) : Except Unit Candidate :=
  match refOut with
  | .err => .error ()
  | .ok txt => .ok ((parse_candidate txt).getD cand)

/-- `process_one(cand, i)` of `process_candidates`: critique, compare the
normalized critique against the sentinel, refine when issues were found and
`MAX_REFINE_ROUNDS` is truthy (non-zero); any exception inside the task is
caught and the original candidate kept. -/
def process_one (mrr : Int) (cand : Candidate) (critOut refOut : ChatOutcome) :
    Candidate :=
  match critOut with
  | .err => cand
  | .ok crit =>
    if normalize_critic crit ≠ "NOISSUE" ∧ mrr ≠ 0 then
      match refine cand refOut with
      | .error _ => cand
      | .ok c => c
    else cand

/-- `process_candidates`: one task per candidate, submitted with its index,
collected by iterating the futures list in submission order.  `procs i` gives
the remote outcomes (critique call, refinement call) of task `i`. -/
def process_candidates (mrr : Int) (procs : Nat → ChatOutcome × ChatOutcome)
    (cands : List Candidate) : List Candidate :=
  cands.enum.map (fun p => process_one mrr p.2 (procs p.1).1 (procs p.1).2)

/-- `re.search(r"Best:\s*([A-Z])", verdict)` at one position: after a literal
`Best:`, the first non-whitespace character must be an upper-case letter. -/
def bestAt (cs : List Char) : Option Char :=
  if startsSeq "Best:".data cs then
    match (cs.drop 5).dropWhile isSpace with
    | c :: _ => if 'A' ≤ c ∧ c ≤ 'Z' then some c else none
    | [] => none
  else none

/-- Leftmost `Best: <letter>` match in the verdict. -/
def findBest : List Char → Option Char
  | [] => none
  | c :: cs =>
    match bestAt (c :: cs) with
    | some ch => some ch
    | none => findBest cs

/-- Collect the `RULE:`-prefixed lines of the verdict, prefix stripped and
trimmed, in order of appearance. -/
def extract_rules (verdict : String) : List String :=
  (splitOnNL verdict.data).filterMap (fun l =>
    if startsSeq "RULE:".data l then some (String.mk (stripList (l.drop 5)))
    else none)

/-- The pure verdict-interpretation part of `judge`: resolve the chosen letter
to an index, default to `(0, [])` when the pattern is absent or the index is
out of range. -/
def judge (cands : List Candidate) (verdict : String) : Nat × List String :=
  match findBest verdict.data with
  | none => (0, [])
  | some ch =>
    let idx := ch.toNat - 65
    if idx < cands.length then (idx, extract_rules verdict) else (0, [])

/-- All remote interactions of one `thinking_loop` run: the generation tasks,
the single fallback generation call, the critique/refinement calls of the
processing tasks, and the judgment call. -/
structure Oracle where
  genTasks : Nat → TaskOutcome
  fallback : ChatOutcome
  procTasks : Nat → ChatOutcome × ChatOutcome
  judgeCall : ChatOutcome

/-- The synthetic failure candidate returned when even the fallback generation
fails. -/
def failure_candidate : Candidate :=
  { thought := "Error: No valid candidates generated."
    answer := "Please try again with a different prompt."
    raw := "THOUGHT:\nError: No valid candidates generated.\n\nANSWER:\nPlease try again with a different prompt." }

/-- `thinking_loop(question)`.  A run that raises to its caller is modelled by
`Except.error ()`: the judgment `chat` call is not wrapped in any
`try/except`, and neither is the final `cands[best_idx]` indexing (the latter
is modelled by `List.get?`, `none` meaning an `IndexError`). -/
def thinking_loop (n : Nat) (mrr : Int) (question : String) (o : Oracle) :
    Except Unit (Candidate × List String) :=
  match generate_candidates n question o.genTasks with
  | [] =>
    match o.fallback with
    | .err => .ok (failure_candidate, [])
    | .ok txt =>
      match parse_candidate txt with
      | some c => .ok (c, [])
      | none => .ok (failure_candidate, [])
  | c0 :: rest =>
    let processed := process_candidates mrr o.procTasks (c0 :: rest)
    match o.judgeCall with
    | .err => .error ()
    | .ok verdict =>
      let r := judge processed verdict
      match processed.get? r.1 with
      | some best => .ok (best, r.2)
      | none => .error ()

/-- A sample candidate used by concrete instantiations below. -/
def candAB : Candidate :=
  { thought := "a", answer := "b", raw := "THOUGHT:\na\n\nANSWER:\nb" }

/-- An oracle on which generation succeeds but the judgment `chat` call raises
a `TransportError`. -/
def oracle_judge_err : Oracle :=
  { genTasks := fun _ => .genOk "THOUGHT: a\n\nANSWER: b" (.ok "YES")
    fallback := .err
    procTasks := fun _ => (.err, .err)
    judgeCall := .err }

/-- The oracle of the degraded-path witness: no generation tasks, a fallback
completion in valid template form. -/
def oracle_degraded : Oracle :=
  { genTasks := fun _ => .genErr
    fallback := .ok "THOUGHT: x\n\nANSWER: y"
    procTasks := fun _ => (.err, .err)
    judgeCall := .err }

/-- The generation outcome used in the C8 witness: a parsable completion that
passes the consistency check. -/
def task_parse_ok : TaskOutcome := .genOk "THOUGHT: a\n\nANSWER: b" (.ok "YES")

/-- A character list free of the emphasis-markup characters that
`parse_candidate` deletes before matching. -/
def markupFree (l : List Char) : Prop := ∀ c ∈ l, isMarkup c = false

/-- The normal form produced by `strip()` followed by whitespace collapse:
every whitespace character is a single space, no two whitespace characters are
adjacent, and the ends are non-whitespace. -/
structure NormOut (l : List Char) : Prop where
  ws_space : ∀ c ∈ l, isSpace c = true → c = ' '
  chain : List.Chain' (fun a b => ¬(isSpace a = true ∧ isSpace b = true)) l
  head_nws : ∀ c, l.head? = some c → isSpace c = false
  last_nws : ∀ c, l.getLast? = some c → isSpace c = false

/-! ### General lemmas about the embedded functions -/

theorem data_append (a b : String) : (a ++ b).data = a.data ++ b.data := rfl

theorem mkRaw_data (t a : String) :
    (mkRaw t a).data =
      "THOUGHT:\n".data ++ t.data ++ ("\n\nANSWER:\n".data ++ a.data) := by
  simp [mkRaw, data_append, List.append_assoc]

theorem mkRaw_ne_empty (t a : String) : mkRaw t a ≠ "" := by
  intro h
  have h2 := congrArg (fun s => s.data.length) h
  simp only [mkRaw_data] at h2
  have h9 : ("THOUGHT:\n".data).length = 9 := rfl
  simp [List.length_append, h9] at h2

/-- Every candidate built by the parser carries the canonical re-serialization
of its own `thought` and `answer` fields in `raw`. -/
theorem parse_candidate_raw_eq (s : String) (c : Candidate)
    (h : parse_candidate s = some c) : c.raw = mkRaw c.thought c.answer := by
  simp only [parse_candidate] at h
  split at h
  · cases h
    rfl
  · split at h
    · cases h
      rfl
    · cases h

theorem map_enumFrom_get? {α β : Type} (f : Nat → α → β) (l : List α) :
    ∀ (n i : Nat),
      ((List.enumFrom n l).map (fun p => f p.1 p.2)).get? i
        = (l.get? i).map (fun x => f (n + i) x) := by
  induction l with
  | nil => intro n i; simp
  | cons x xs ih =>
    intro n i
    cases i with
    | zero => simp [List.enumFrom]
    | succ j =>
      have : n + (j + 1) = (n + 1) + j := by omega
      simp only [List.enumFrom, List.map_cons, List.get?_cons_succ, this]
      exact ih (n + 1) j

theorem process_candidates_length (mrr : Int)
    (procs : Nat → ChatOutcome × ChatOutcome) (cands : List Candidate) :
    (process_candidates mrr procs cands).length = cands.length := by
  simp [process_candidates]

theorem process_one_zero (c : Candidate) (a b : ChatOutcome) :
    process_one 0 c a b = c := by
  cases a with
  | err => rfl
  | ok crit => simp [process_one]

theorem process_one_noissue (mrr : Int) (c : Candidate) (crit : String)
    (b : ChatOutcome) (h : normalize_critic crit = "NOISSUE") :
    process_one mrr c (.ok crit) b = c := by
  simp [process_one, h]

theorem process_candidates_get? (mrr : Int)
    (procs : Nat → ChatOutcome × ChatOutcome) (cands : List Candidate) (i : Nat) :
    (process_candidates mrr procs cands).get? i
      = (cands.get? i).map (fun c => process_one mrr c (procs i).1 (procs i).2) := by
  have h := map_enumFrom_get?
    (fun k (c : Candidate) => process_one mrr c (procs k).1 (procs k).2) cands 0 i
  simpa [process_candidates, List.enum] using h

theorem judge_fst_lt (cands : List Candidate) (v : String) (h : cands ≠ []) :
    (judge cands v).1 < cands.length := by
  have hl : 0 < cands.length := List.length_pos.mpr h
  unfold judge
  cases hb : findBest v.data with
  | none => simp [hl]
  | some ch =>
    by_cases hidx : ch.toNat - 65 < cands.length
    · simp [hidx]
    · simp [hidx, hl]

/-! ### Claim C2 -/

/-- Claim C2, counterexample: `parse_candidate` can construct a Candidate with
empty `thought` and empty `answer`.  On the input `"THOUGHT:ANSWER:"` the
relaxed pattern matches with both captured spans empty, so the returned
Candidate refutes the claim that both text fields are non-empty whenever a
Candidate exists. -/
theorem parse_candidate_empty_fields_counterexample :
    parse_candidate "THOUGHT:ANSWER:" =
      some { thought := "", answer := "", raw := "THOUGHT:\n\n\nANSWER:\n" } := by
  rfl

/-- Claim C2 (amended): every non-absent result of `parse_candidate` is fully
constructed — its `raw` field is the non-empty canonical re-serialization
`THOUGHT:\n{thought}\n\nANSWER:\n{answer}` of its own two text fields — but
the `thought` and `answer` fields themselves may be empty strings (see the
counterexample), so non-emptiness of the text fields does not hold. -/
theorem parse_candidate_fields_total (s : String) (c : Candidate)
    (h : parse_candidate s = some c) :
    c.raw = mkRaw c.thought c.answer ∧ c.raw ≠ "" := by
  have hr := parse_candidate_raw_eq s c h
  exact ⟨hr, by rw [hr]; exact mkRaw_ne_empty _ _⟩

/-- Claim C2, witness for the amended theorem at a concrete parse. -/
theorem parse_candidate_fields_total_witness :
    ({ thought := "x", answer := "y", raw := "THOUGHT:\nx\n\nANSWER:\ny" } :
      Candidate).raw = mkRaw "x" "y" ∧
    ({ thought := "x", answer := "y", raw := "THOUGHT:\nx\n\nANSWER:\ny" } :
      Candidate).raw ≠ "" :=
  parse_candidate_fields_total "THOUGHT: x\n\nANSWER: y"
    { thought := "x", answer := "y", raw := "THOUGHT:\nx\n\nANSWER:\ny" } (by rfl)

/-! ### Claim C3 -/

/-- Claim C3, counterexample: with `maxRefineRounds = -1` (a negative value)
and a critique that does not normalize to the sentinel, `process_candidates`
does refine the candidate: Python's `and MAX_REFINE_ROUNDS` tests truthiness
(non-zero), so every negative value behaves like a positive one, refuting the
claim for `maxRefineRounds ≤ 0`. -/
theorem process_negative_rounds_counterexample :
    process_candidates (-1)
        (fun _ => (.ok "found issues", .ok "THOUGHT: r\n\nANSWER: s"))
        [candAB]
      ≠ [candAB] := by
  decide

/-- Claim C3 (amended): for `maxRefineRounds = 0` — but only for `0`, not for
negative values — `process_candidates` returns every candidate unchanged
whatever the critique and refinement outcomes are, so no refinement outcome is
ever consulted; a negative `maxRefineRounds` is truthy in Python and triggers
refinement like a positive one. -/
theorem process_candidates_zero_rounds_id
    (procs : Nat → ChatOutcome × ChatOutcome) (cands : List Candidate) :
    process_candidates 0 procs cands = cands := by
  apply List.ext_get?
  intro i
  rw [process_candidates_get?]
  cases h : cands.get? i with
  | none => rfl
  | some c => simp [process_one_zero]

/-! ### Claim C1 -/

/-- Claim C1, counterexample: `thinking_loop` does raise to its caller when a
`TransportError` occurs during the judgment call — `judge`'s `chat` call is
outside every `try/except`, so on this oracle (one successfully generated
candidate, failing judgment transport) the run ends in a raised exception,
refuting the claim that a `PipelineResult` is returned in that case too. -/
theorem thinking_loop_judge_error_counterexample :
    thinking_loop 1 1 "q" oracle_judge_err = .error () := by
  rfl

/-- Claim C1 (amended): `thinking_loop` raises to its caller exactly when the
candidate list is non-empty and the judgment `chat` call raises; for every
other combination of transport, parsing, consistency, critique and refinement
outcomes — including every outcome of the degraded fallback path — it returns
a `PipelineResult`. -/
theorem thinking_loop_error_iff (n : Nat) (mrr : Int) (q : String) (o : Oracle) :
    thinking_loop n mrr q o = .error () ↔
      (generate_candidates n q o.genTasks ≠ [] ∧ o.judgeCall = .err) := by
  unfold thinking_loop
  cases hg : generate_candidates n q o.genTasks with
  | nil =>
    cases hf : o.fallback with
    | err => simp
    | ok txt =>
      cases hp : parse_candidate txt with
      | none => simp [hp]
      | some c => simp [hp]
  | cons c0 rest =>
    cases hj : o.judgeCall with
    | err => simp
    | ok v =>
      have hne : process_candidates mrr o.procTasks (c0 :: rest) ≠ [] := by
        intro hh
        have hlen := process_candidates_length mrr o.procTasks (c0 :: rest)
        rw [hh] at hlen
        simp at hlen
      have hlt := judge_fst_lt (process_candidates mrr o.procTasks (c0 :: rest)) v hne
      have hsome := List.getElem?_eq_getElem hlt
      simp [hsome]

/-! ### Claim C4 -/

/-- Claim C4: when generation yields no candidates, the single unchecked
fallback generation decides the outcome without a consistency check: a parsed
fallback completion is returned with an empty rule list; a transport failure
or a parse failure of the fallback yields the fixed synthetic failure
Candidate (whose answer instructs the user to retry) with an empty rule
list. -/
theorem thinking_loop_degraded_path (n : Nat) (mrr : Int) (q : String)
    (o : Oracle) (h : generate_candidates n q o.genTasks = []) :
    (o.fallback = .err → thinking_loop n mrr q o = .ok (failure_candidate, [])) ∧
    (∀ txt c, o.fallback = .ok txt → parse_candidate txt = some c →
      thinking_loop n mrr q o = .ok (c, [])) ∧
    (∀ txt, o.fallback = .ok txt → parse_candidate txt = none →
      thinking_loop n mrr q o = .ok (failure_candidate, [])) ∧
    failure_candidate.answer = "Please try again with a different prompt." := by
  unfold thinking_loop
  rw [h]
  refine ⟨?_, ?_, ?_, rfl⟩
  · intro hf
    rw [hf]
  · intro txt c hf hp
    simp [hf, hp]
  · intro txt hf hp
    simp [hf, hp]

/-- Claim C4, witness: with zero generation tasks and a parsable fallback, the
orchestrator returns the fallback candidate with an empty rule list. -/
theorem thinking_loop_degraded_path_witness :
    thinking_loop 0 1 "q" oracle_degraded =
      .ok ({ thought := "x", answer := "y", raw := "THOUGHT:\nx\n\nANSWER:\ny" }, []) :=
  (thinking_loop_degraded_path 0 1 "q" oracle_degraded (by rfl)).2.1
    "THOUGHT: x\n\nANSWER: y"
    { thought := "x", answer := "y", raw := "THOUGHT:\nx\n\nANSWER:\ny" }
    rfl (by rfl)

/-! ### Claim C5 -/

/-- Claim C5: for a non-empty candidate list, the index produced by the
judge's verdict interpretation is always in `[0, len(candidates))`; when the
verdict has no `Best: <letter>` pattern, or the letter resolves to an index
that is not below the list length, the result is index `0` with an empty rule
list. -/
theorem judge_best_index_safe (cands : List Candidate) (verdict : String)
    (h : cands ≠ []) :
    (judge cands verdict).1 < cands.length ∧
    (findBest verdict.data = none → judge cands verdict = (0, [])) ∧
    (∀ ch, findBest verdict.data = some ch → cands.length ≤ ch.toNat - 65 →
      judge cands verdict = (0, [])) := by
  refine ⟨judge_fst_lt cands verdict h, ?_, ?_⟩
  · intro hb
    unfold judge
    rw [hb]
  · intro ch hb hle
    unfold judge
    rw [hb]
    simp [Nat.not_lt.mpr hle]

/-- Claim C5, witness: a singleton candidate list with an unparsable verdict
yields index `0`, an empty rule list, and an in-range index. -/
theorem judge_best_index_safe_witness :
    (judge [candAB] "no verdict here").1 < 1 ∧
    judge [candAB] "no verdict here" = (0, []) := by
  have h := judge_best_index_safe [candAB] "no verdict here" (by simp)
  exact ⟨h.1, h.2.1 (by rfl)⟩

/-! ### Claim C6 -/

/-- Claim C6: `process_candidates` returns a list of the same length as its
input in which position `i` is computed from input position `i` (order is
preserved); a candidate whose critique normalizes to `NOISSUE` is returned
unchanged, `raw` field included; and normalization identifies `"NO ISSUE"` and
`"No-Issue!!"` with the sentinel `"NOISSUE"`. -/
theorem process_candidates_spec (mrr : Int)
    (procs : Nat → ChatOutcome × ChatOutcome) (cands : List Candidate) :
    (process_candidates mrr procs cands).length = cands.length ∧
    (∀ i, (process_candidates mrr procs cands).get? i
      = (cands.get? i).map (fun c => process_one mrr c (procs i).1 (procs i).2)) ∧
    (∀ i crit, (procs i).1 = .ok crit → normalize_critic crit = "NOISSUE" →
      (process_candidates mrr procs cands).get? i = cands.get? i) ∧
    (normalize_critic "NO ISSUE" = "NOISSUE" ∧
     normalize_critic "No-Issue!!" = "NOISSUE") := by
  refine ⟨process_candidates_length mrr procs cands,
    fun i => process_candidates_get? mrr procs cands i, ?_, by rfl, by rfl⟩
  intro i crit hc hn
  rw [process_candidates_get?]
  cases h : cands.get? i with
  | none => rfl
  | some c =>
    simp only [Option.map_some']
    rw [hc, process_one_noissue mrr c crit _ hn]

/-- Claim C6, witness: a concrete candidate whose critique is `"No-Issue!!"`
is passed through unchanged. -/
theorem process_candidates_spec_witness :
    (process_candidates 5 (fun _ => (.ok "No-Issue!!", .err)) [candAB]).get? 0
      = some candAB := by
  have h := (process_candidates_spec 5 (fun _ => (.ok "No-Issue!!", .err))
    [candAB]).2.2.1 0 "No-Issue!!" rfl (by rfl)
  simpa using h

/-! ### Claim C7 -/

/-- Claim C7: both the `THOUGHT:/ANSWER:` and the `Reasoning:/Conclusion:`
spellings parse to `{thought: "x", answer: "y"}`, and every Candidate produced
by the parser has `raw` equal to the canonical
`THOUGHT:\n{thought}\n\nANSWER:\n{answer}` string rebuilt from its own
fields. -/
theorem parse_candidate_template_formats :
    parse_candidate "THOUGHT: x\n\nANSWER: y" =
      some { thought := "x", answer := "y", raw := "THOUGHT:\nx\n\nANSWER:\ny" } ∧
    parse_candidate "Reasoning: x\n\nConclusion: y" =
      some { thought := "x", answer := "y", raw := "THOUGHT:\nx\n\nANSWER:\ny" } ∧
    ∀ s c, parse_candidate s = some c → c.raw = mkRaw c.thought c.answer :=
  ⟨by rfl, by rfl, fun s c h => parse_candidate_raw_eq s c h⟩

/-- Claim C7, witness for the universally quantified part at a concrete parse. -/
theorem parse_candidate_template_formats_witness :
    ({ thought := "x", answer := "y", raw := "THOUGHT:\nx\n\nANSWER:\ny" } :
      Candidate).raw = mkRaw "x" "y" :=
  parse_candidate_template_formats.2.2 "Reasoning: x\n\nConclusion: y"
    { thought := "x", answer := "y", raw := "THOUGHT:\nx\n\nANSWER:\ny" } (by rfl)

/-! ### Claim C8 -/

theorem find?_eq_of_mem_of_unique {α : Type} (l : List α) (p : α → Bool) (a : α)
    (ha : a ∈ l) (hpa : p a = true) (huniq : ∀ b ∈ l, p b = true → b = a) :
    l.find? p = some a := by
  induction l with
  | nil => cases ha
  | cons x xs ih =>
    by_cases hx : p x = true
    · have hxa : x = a := huniq x (List.mem_cons_self x xs) hx
      subst hxa
      rw [List.find?_cons_of_pos _ hx]
    · have hax : a ∈ xs := by
        cases List.mem_cons.mp ha with
        | inl h => exact absurd (h ▸ hpa) hx
        | inr h => exact h
      rw [List.find?_cons_of_neg _ (by simpa using hx)]
      exact ih hax (fun b hb hpb => huniq b (List.mem_cons_of_mem x hb) hpb)

/-- Reading a future's result from any completion log that is a permutation of
the per-task results recovers exactly that task's own result: completion order
is irrelevant. -/
theorem future_result_of_perm (n : Nat) (results : Nat → Option Candidate)
    (log : List (Nat × Option Candidate))
    (hperm : log.Perm ((List.range n).map (fun i => (i, results i))))
    (i : Nat) (hi : i < n) :
    future_result log i = results i := by
  have hmem : (i, results i) ∈ log :=
    hperm.mem_iff.mpr (List.mem_map.mpr ⟨i, List.mem_range.mpr hi, rfl⟩)
  have huniq : ∀ b ∈ log, (b.1 == i) = true → b = (i, results i) := by
    intro b hb hbi
    have hb2 : b ∈ (List.range n).map (fun j => (j, results j)) :=
      hperm.mem_iff.mp hb
    obtain ⟨j, _, rfl⟩ := List.mem_map.mp hb2
    have hji : j = i := by simpa using hbi
    subst hji
    rfl
  unfold future_result
  rw [find?_eq_of_mem_of_unique log (fun p => p.1 == i) (i, results i) hmem
    (by simp) huniq]

/-- Claim C8: whatever order the pool's tasks complete in (any permutation
`log` of the per-task results), the aggregated candidate list equals the
index-ordered, submission-order aggregation of the surviving per-task
results — dropping failed tasks (`none`s) never reorders the survivors. -/
theorem generate_candidates_submission_order (n : Nat) (q : String)
    (tasks : Nat → TaskOutcome) (log : List (Nat × Option Candidate))
    (hperm : log.Perm
      ((List.range n).map (fun i => (i, generate_one q (tasks i))))) :
    generate_candidates_pool n log
      = ((List.range n).map (fun i => generate_one q (tasks i))).filterMap id ∧
    generate_candidates n q tasks
      = ((List.range n).map (fun i => generate_one q (tasks i))).filterMap id := by
  constructor
  · unfold generate_candidates_pool
    congr 1
    apply List.map_congr_left
    intro i hi
    exact future_result_of_perm n (fun j => generate_one q (tasks j)) log hperm i
      (List.mem_range.mp hi)
  · rfl

/-- Claim C8, witness: two tasks whose completion log is reversed (task 1
finished first) still aggregate in submission order, dropping the failed
task 0. -/
theorem generate_candidates_submission_order_witness :
    generate_candidates_pool 2 [(1, some candAB), (0, none)] = [candAB] := by
  have h := (generate_candidates_submission_order 2 "q"
    (fun i => if i == 0 then .genErr else task_parse_ok)
    [(1, some candAB), (0, none)] (by decide)).1
  exact h.trans (by rfl)

/-! ### Claim C9 -/

theorem startsSeq_iff (p : List Char) : ∀ l : List Char,
    startsSeq p l = true ↔ ∃ t, l = p ++ t := by
  induction p with
  | nil =>
    intro l
    simp [startsSeq]
  | cons a as ih =>
    intro l
    cases l with
    | nil =>
      simp [startsSeq]
    | cons b bs =>
      rw [startsSeq, Bool.and_eq_true, beq_iff_eq, ih bs]
      constructor
      · rintro ⟨rfl, t, rfl⟩
        exact ⟨t, rfl⟩
      · rintro ⟨t, ht⟩
        rw [List.cons_append] at ht
        cases ht
        exact ⟨rfl, t, rfl⟩

theorem containsSeq_iff (needle : List Char) : ∀ hay : List Char,
    containsSeq needle hay = true ↔ ∃ s t, hay = s ++ needle ++ t := by
  intro hay
  induction hay with
  | nil =>
    rw [containsSeq, startsSeq_iff]
    constructor
    · rintro ⟨t, ht⟩
      exact ⟨[], t, ht⟩
    · rintro ⟨s, t, hst⟩
      cases s with
      | nil => exact ⟨t, by simpa using hst⟩
      | cons x xs => simp at hst
  | cons c cs ih =>
    rw [containsSeq, Bool.or_eq_true, startsSeq_iff, ih]
    constructor
    · rintro (⟨t, ht⟩ | ⟨s, t, ht⟩)
      · exact ⟨[], t, by simpa using ht⟩
      · exact ⟨c :: s, t, by simp [ht]⟩
    · rintro ⟨s, t, hst⟩
      cases s with
      | nil =>
        left
        exact ⟨t, by simpa using hst⟩
      | cons x xs =>
        right
        rw [List.cons_append, List.cons_append] at hst
        cases hst
        exact ⟨xs, t, rfl⟩

/-- A case-folded substring occurrence pulls back to a decomposition of the
original list whose middle segment folds to the keyword. -/
theorem map_decompose (f : Char → Char) (q k : List Char) :
    (∃ s t, q.map f = s ++ k ++ t) ↔
    (∃ p m r, q = p ++ m ++ r ∧ m.map f = k) := by
  constructor
  · rintro ⟨s, t, h⟩
    refine ⟨q.take s.length, (q.drop s.length).take k.length,
      (q.drop s.length).drop k.length, ?_, ?_⟩
    · rw [List.append_assoc, List.take_append_drop, List.take_append_drop]
    · have h1 : ((q.drop s.length).take k.length).map f
          = ((q.map f).drop s.length).take k.length := by
        rw [List.map_take, List.map_drop]
      rw [h1, h, List.append_assoc, List.drop_left, List.take_left]
  · rintro ⟨p, m, r, rfl, hm⟩
    exact ⟨p.map f, r.map f, by simp [hm]⟩

theorem map_toUp_eq_three (l : List Char) (a b c : Char) (t : List Char)
    (h : l.map toUp = a :: b :: c :: t) :
    ∃ x y z r, l = x :: y :: z :: r ∧ toUp x = a ∧ toUp y = b ∧ toUp z = c := by
  cases l with
  | nil => simp at h
  | cons x l1 =>
    cases l1 with
    | nil => simp at h
    | cons y l2 =>
      cases l2 with
      | nil => simp at h
      | cons z r =>
        simp only [List.map_cons, List.cons.injEq] at h
        exact ⟨x, y, z, r, rfl, h.1, h.2.1, h.2.2.1⟩

theorem starts_yes_iff (r : String) :
    starts_yes r = true ↔
      ∃ c1 c2 c3 rest, stripList r.data = c1 :: c2 :: c3 :: rest ∧
        toUp c1 = 'Y' ∧ toUp c2 = 'E' ∧ toUp c3 = 'S' := by
  unfold starts_yes
  rw [startsSeq_iff]
  constructor
  · rintro ⟨t, ht⟩
    rw [show "YES".data = ['Y', 'E', 'S'] from rfl] at ht
    simp only [List.cons_append, List.nil_append] at ht
    obtain ⟨x, y, z, rest, hl, h1, h2, h3⟩ :=
      map_toUp_eq_three (stripList r.data) 'Y' 'E' 'S' t ht
    exact ⟨x, y, z, rest, hl, h1, h2, h3⟩
  · rintro ⟨c1, c2, c3, rest, hl, h1, h2, h3⟩
    refine ⟨rest.map toUp, ?_⟩
    rw [hl]
    simp [h1, h2, h3]

/-! ### Whitespace normal forms (towards Claim C10) -/

theorem getLast?_cons_cases {α : Type} (x : α) (xs : List α) (c : α)
    (h : (x :: xs).getLast? = some c) :
    (xs = [] ∧ c = x) ∨ xs.getLast? = some c := by
  cases xs with
  | nil =>
    left
    refine ⟨rfl, ?_⟩
    simpa using h.symm
  | cons y ys =>
    right
    simpa [List.getLast?_cons_cons] using h

theorem getLast?_cons_of_ne {α : Type} (x : α) (xs : List α) (h : xs ≠ []) :
    (x :: xs).getLast? = xs.getLast? := by
  cases xs with
  | nil => exact absurd rfl h
  | cons y ys => simp [List.getLast?_cons_cons]

theorem collapseGo_mem (l : List Char) : ∀ (b : Bool) (c : Char),
    c ∈ collapseGo b l → c = ' ' ∨ c ∈ l := by
  induction l with
  | nil =>
    intro b c h
    simp [collapseGo] at h
  | cons x xs ih =>
    intro b c h
    simp only [collapseGo] at h
    by_cases hx : isSpace x
    · rw [if_pos hx] at h
      cases b with
      | true =>
        rcases ih true c h with h' | h'
        · exact Or.inl h'
        · exact Or.inr (List.mem_cons_of_mem x h')
      | false =>
        rcases List.mem_cons.mp h with h' | h'
        · exact Or.inl h'
        · rcases ih true c h' with h'' | h''
          · exact Or.inl h''
          · exact Or.inr (List.mem_cons_of_mem x h'')
    · rw [if_neg hx] at h
      rcases List.mem_cons.mp h with h' | h'
      · exact Or.inr (h' ▸ List.mem_cons_self x xs)
      · rcases ih false c h' with h'' | h''
        · exact Or.inl h''
        · exact Or.inr (List.mem_cons_of_mem x h'')

theorem collapseGo_ws_space (l : List Char) : ∀ (b : Bool) (c : Char),
    c ∈ collapseGo b l → isSpace c = true → c = ' ' := by
  induction l with
  | nil =>
    intro b c h
    simp [collapseGo] at h
  | cons x xs ih =>
    intro b c h hc
    simp only [collapseGo] at h
    by_cases hx : isSpace x
    · rw [if_pos hx] at h
      cases b with
      | true => exact ih true c h hc
      | false =>
        rcases List.mem_cons.mp h with h' | h'
        · exact h'
        · exact ih true c h' hc
    · rw [if_neg hx] at h
      rcases List.mem_cons.mp h with h' | h'
      · rw [h'] at hc
        exact absurd hc (by simp [hx])
      · exact ih false c h' hc

theorem collapseGo_true_head (l : List Char) : ∀ c : Char,
    (collapseGo true l).head? = some c → isSpace c = false := by
  induction l with
  | nil =>
    intro c h
    simp [collapseGo] at h
  | cons x xs ih =>
    intro c h
    simp only [collapseGo] at h
    by_cases hx : isSpace x
    · rw [if_pos hx] at h
      exact ih c h
    · rw [if_neg hx] at h
      simp only [List.head?_cons, Option.some.injEq] at h
      rw [← h]
      simpa using hx

theorem collapseGo_chain (l : List Char) : ∀ b : Bool,
    List.Chain' (fun a b' => ¬(isSpace a = true ∧ isSpace b' = true))
      (collapseGo b l) := by
  induction l with
  | nil =>
    intro b
    simp [collapseGo]
  | cons x xs ih =>
    intro b
    simp only [collapseGo]
    by_cases hx : isSpace x
    · rw [if_pos hx]
      cases b with
      | true => exact ih true
      | false =>
        apply List.chain'_cons'.mpr
        refine ⟨?_, ih true⟩
        intro y hy
        have := collapseGo_true_head xs y hy
        simp [this]
    · rw [if_neg hx]
      rw [List.chain'_cons']
      refine ⟨?_, ih false⟩
      intro y hy
      simp [hx]

theorem collapseGo_eq_nil (l : List Char) : ∀ b : Bool,
    collapseGo b l = [] → ∀ c ∈ l, isSpace c = true := by
  induction l with
  | nil =>
    intro b _ c hc
    cases hc
  | cons x xs ih =>
    intro b h c hc
    simp only [collapseGo] at h
    by_cases hx : isSpace x
    · rw [if_pos hx] at h
      cases b with
      | true =>
        rcases List.mem_cons.mp hc with h' | h'
        · exact h' ▸ hx
        · exact ih true h c h'
      | false => cases h
    · rw [if_neg hx] at h
      cases h

theorem collapseGo_last (l : List Char) : ∀ b : Bool,
    (∀ c, l.getLast? = some c → isSpace c = false) →
    ∀ c, (collapseGo b l).getLast? = some c → isSpace c = false := by
  induction l with
  | nil =>
    intro b _ c h
    simp [collapseGo] at h
  | cons x xs ih =>
    intro b hlast c h
    have hxs : xs ≠ [] → ∀ d, xs.getLast? = some d → isSpace d = false := by
      intro hne d hd
      exact hlast d ((getLast?_cons_of_ne x xs hne) ▸ hd)
    simp only [collapseGo] at h
    by_cases hx : isSpace x
    · have hxsne : xs ≠ [] := by
        intro hnil
        subst hnil
        have := hlast x (by simp)
        exact absurd hx (by simp [this])
      rw [if_pos hx] at h
      cases b with
      | true => exact ih true (hxs hxsne) c h
      | false =>
        rcases getLast?_cons_cases ' ' (collapseGo true xs) c h with ⟨hnil, hcx⟩ | h'
        · exfalso
          have hall := collapseGo_eq_nil xs true hnil
          have hd : xs.getLast? = some (xs.getLast hxsne) :=
            List.getLast?_eq_getLast_of_ne_nil hxsne
          have h1 := hxs hxsne _ hd
          have h2 := hall _ (List.getLast_mem hxsne)
          simp [h2] at h1
        · exact ih true (hxs hxsne) c h'
    · rw [if_neg hx] at h
      rcases getLast?_cons_cases x (collapseGo false xs) c h with ⟨_, hcx⟩ | h'
      · rw [hcx]
        simpa using hx
      · have hxsne : xs ≠ [] := by
          intro hnil
          subst hnil
          simp [collapseGo] at h'
        exact ih false (hxs hxsne) c h'

theorem collapseGo_false_head (l : List Char)
    (h : ∀ c, l.head? = some c → isSpace c = false) :
    ∀ c, (collapseGo false l).head? = some c → isSpace c = false := by
  cases l with
  | nil =>
    intro c hc
    simp [collapseGo] at hc
  | cons x xs =>
    intro c hc
    have hx := h x rfl
    simp only [collapseGo, if_neg (by simp [hx] : ¬isSpace x = true),
      List.head?_cons, Option.some.injEq] at hc
    rw [← hc]
    exact hx

/-- `collapseGo` is the identity on whitespace-normal input. -/
theorem collapseGo_id (l : List Char)
    (hws : ∀ c ∈ l, isSpace c = true → c = ' ')
    (hch : List.Chain' (fun a b => ¬(isSpace a = true ∧ isSpace b = true)) l)
    (hlast : ∀ c, l.getLast? = some c → isSpace c = false) :
    collapseGo false l = l ∧
    ((∀ c, l.head? = some c → isSpace c = false) → collapseGo true l = l) := by
  induction l with
  | nil => exact ⟨rfl, fun _ => rfl⟩
  | cons x xs ih =>
    have hws' : ∀ c ∈ xs, isSpace c = true → c = ' ' :=
      fun c hc => hws c (List.mem_cons_of_mem x hc)
    have hch' := (List.chain'_cons'.mp hch).2
    by_cases hx : isSpace x = true
    · have hxsp : x = ' ' := hws x (List.mem_cons_self x xs) hx
      have hxsne : xs ≠ [] := by
        intro hnil
        subst hnil
        have := hlast x (by simp)
        simp [this] at hx
      have hlast' : ∀ c, xs.getLast? = some c → isSpace c = false :=
        fun c hc => hlast c ((getLast?_cons_of_ne x xs hxsne) ▸ hc)
      have hheadxs : ∀ c, xs.head? = some c → isSpace c = false := by
        intro c hc
        have hR := (List.chain'_cons'.mp hch).1 c hc
        cases hsc : isSpace c with
        | false => rfl
        | true => exact absurd ⟨hx, hsc⟩ hR
      have ihr := ih hws' hch' hlast'
      constructor
      · simp only [collapseGo, if_pos hx]
        rw [ihr.2 hheadxs, hxsp]
        simp
      · intro hhead
        have := hhead x rfl
        simp [this] at hx
    · have hlast' : ∀ c, xs.getLast? = some c → isSpace c = false := by
        intro c hc
        have hne : xs ≠ [] := by
          intro h0
          subst h0
          simp at hc
        exact hlast c ((getLast?_cons_of_ne x xs hne) ▸ hc)
      have ihr := ih hws' hch' hlast'
      constructor
      · simp only [collapseGo, if_neg hx]
        rw [ihr.1]
      · intro _
        simp only [collapseGo, if_neg hx]
        rw [ihr.1]

theorem stripTrailing_cons_nil (x : Char) (xs : List Char)
    (h : stripTrailing xs = []) :
    stripTrailing (x :: xs) = if isSpace x then [] else [x] := by
  simp only [stripTrailing, h]

theorem stripTrailing_cons_ne (x : Char) (xs : List Char)
    (h : stripTrailing xs ≠ []) :
    stripTrailing (x :: xs) = x :: stripTrailing xs := by
  cases hst : stripTrailing xs with
  | nil => exact absurd hst h
  | cons y ys => simp only [stripTrailing, hst]

theorem stripTrailing_head (l : List Char) :
    ∀ c, (stripTrailing l).head? = some c → l.head? = some c := by
  cases l with
  | nil =>
    intro c h
    simp [stripTrailing] at h
  | cons x xs =>
    intro c h
    by_cases hst : stripTrailing xs = []
    · rw [stripTrailing_cons_nil x xs hst] at h
      by_cases hx : isSpace x
      · rw [if_pos hx] at h
        simp at h
      · rw [if_neg hx] at h
        simpa using h
    · rw [stripTrailing_cons_ne x xs hst] at h
      simpa using h

theorem stripTrailing_last (l : List Char) :
    ∀ c, (stripTrailing l).getLast? = some c → isSpace c = false := by
  induction l with
  | nil =>
    intro c h
    simp [stripTrailing] at h
  | cons x xs ih =>
    intro c h
    by_cases hst : stripTrailing xs = []
    · rw [stripTrailing_cons_nil x xs hst] at h
      by_cases hx : isSpace x
      · rw [if_pos hx] at h
        simp at h
      · rw [if_neg hx] at h
        have : x = c := by simpa using h
        rw [← this]
        simpa using hx
    · rw [stripTrailing_cons_ne x xs hst] at h
      rcases getLast?_cons_cases x _ c h with ⟨hnil, _⟩ | h'
      · exact absurd hnil hst
      · exact ih c h'

theorem stripTrailing_eq_self (l : List Char)
    (h : ∀ c, l.getLast? = some c → isSpace c = false) : stripTrailing l = l := by
  induction l with
  | nil => rfl
  | cons x xs ih =>
    by_cases hxs : xs = []
    · subst hxs
      have hx := h x (by simp)
      rw [stripTrailing_cons_nil x [] rfl, if_neg (by simp [hx])]
    · have hlast' : ∀ c, xs.getLast? = some c → isSpace c = false :=
        fun c hc => h c ((getLast?_cons_of_ne x xs hxs) ▸ hc)
      have hst := ih hlast'
      rw [stripTrailing_cons_ne x xs (by rw [hst]; exact hxs), hst]

theorem stripTrailing_mem (l : List Char) : ∀ c ∈ stripTrailing l, c ∈ l := by
  induction l with
  | nil =>
    intro c h
    simp [stripTrailing] at h
  | cons x xs ih =>
    intro c h
    by_cases hst : stripTrailing xs = []
    · rw [stripTrailing_cons_nil x xs hst] at h
      by_cases hx : isSpace x
      · rw [if_pos hx] at h
        simp at h
      · rw [if_neg hx] at h
        have : c = x := by simpa using h
        simp [this]
    · rw [stripTrailing_cons_ne x xs hst] at h
      rcases List.mem_cons.mp h with h' | h'
      · simp [h']
      · exact List.mem_cons_of_mem x (ih c h')

theorem dropWhile_head_nws (l : List Char) :
    ∀ c, (l.dropWhile isSpace).head? = some c → isSpace c = false := by
  induction l with
  | nil =>
    intro c h
    simp at h
  | cons x xs ih =>
    intro c h
    by_cases hx : isSpace x
    · rw [List.dropWhile_cons_of_pos hx] at h
      exact ih c h
    · rw [List.dropWhile_cons_of_neg hx] at h
      have : x = c := by simpa using h
      rw [← this]
      simpa using hx

theorem dropWhile_mem (l : List Char) (p : Char → Bool) :
    ∀ c ∈ l.dropWhile p, c ∈ l := by
  induction l with
  | nil =>
    intro c h
    simp at h
  | cons x xs ih =>
    intro c h
    by_cases hx : p x
    · rw [List.dropWhile_cons_of_pos hx] at h
      exact List.mem_cons_of_mem x (ih c h)
    · rw [List.dropWhile_cons_of_neg hx] at h
      exact h

theorem dropWhile_eq_self_of_head (l : List Char)
    (h : ∀ c, l.head? = some c → isSpace c = false) : l.dropWhile isSpace = l := by
  cases l with
  | nil => rfl
  | cons x xs => exact List.dropWhile_cons_of_neg (by simp [h x rfl])

theorem stripList_head (l : List Char) :
    ∀ c, (stripList l).head? = some c → isSpace c = false :=
  fun c h => dropWhile_head_nws l c (stripTrailing_head _ c h)

theorem stripList_last (l : List Char) :
    ∀ c, (stripList l).getLast? = some c → isSpace c = false :=
  fun c h => stripTrailing_last _ c h

theorem stripList_mem (l : List Char) : ∀ c ∈ stripList l, c ∈ l :=
  fun c h => dropWhile_mem l isSpace c (stripTrailing_mem _ c h)

theorem stripList_eq_self (l : List Char)
    (hh : ∀ c, l.head? = some c → isSpace c = false)
    (hl : ∀ c, l.getLast? = some c → isSpace c = false) : stripList l = l := by
  unfold stripList
  rw [dropWhile_eq_self_of_head l hh, stripTrailing_eq_self l hl]

theorem normSpan_data (g : List Char) :
    (normSpan g).data = collapseGo false (stripList g) := rfl

/-- Every captured span, once stripped and collapsed, is in whitespace normal
form. -/
theorem normSpan_normOut (g : List Char) : NormOut (normSpan g).data := by
  rw [normSpan_data]
  refine ⟨?_, ?_, ?_, ?_⟩
  · intro c hc hsc
    exact collapseGo_ws_space _ false c hc hsc
  · exact collapseGo_chain _ false
  · exact collapseGo_false_head _ (stripList_head g)
  · exact collapseGo_last _ false (stripList_last g)

/-- `strip` followed by collapse is the identity on whitespace-normal input. -/
theorem collapse_strip_id (l : List Char) (h : NormOut l) :
    collapseGo false (stripList l) = l := by
  rw [stripList_eq_self l h.head_nws h.last_nws]
  exact (collapseGo_id l h.ws_space h.chain h.last_nws).1

/-- On whitespace-normal input, `normSpan` just repackages the list. -/
theorem normSpan_id (l : List Char) (h : NormOut l) :
    normSpan l = String.mk l := by
  unfold normSpan collapseWs
  rw [collapse_strip_id l h]

theorem normSpan_mem (g : List Char) :
    ∀ c ∈ (normSpan g).data, c = ' ' ∨ c ∈ g := by
  intro c hc
  rw [normSpan_data] at hc
  rcases collapseGo_mem _ false c hc with h | h
  · exact Or.inl h
  · exact Or.inr (stripList_mem g c h)

/-! ### Label occurrence lemmas (towards Claim C10) -/

theorem ciStartsWith_cons_false (l : Char) (ls : List Char) (c : Char)
    (cs : List Char) (h : (toUp c == l) = false) :
    ciStartsWith (l :: ls) (c :: cs) = false := by
  simp [ciStartsWith, h]

/-- A case-insensitive label match cannot look past a newline when the label
itself contains none: the match already succeeds on the prefix. -/
theorem ciStartsWith_newline_stop (lbl : List Char) (hnl : '\n' ∉ lbl) :
    ∀ (u v : List Char), ciStartsWith lbl (u ++ '\n' :: v) = true →
      ciStartsWith lbl u = true := by
  induction lbl with
  | nil =>
    intro u v _
    rfl
  | cons l ls ih =>
    intro u v h
    cases u with
    | nil =>
      exfalso
      rw [List.nil_append, ciStartsWith, Bool.and_eq_true, beq_iff_eq] at h
      have hlnl : l ≠ '\n' := fun he => hnl (he ▸ List.mem_cons_self l ls)
      exact hlnl (by rw [← h.1]; rfl)
    | cons c us =>
      rw [List.cons_append, ciStartsWith, Bool.and_eq_true] at h
      rw [ciStartsWith, Bool.and_eq_true]
      exact ⟨h.1, ih (fun hm => hnl (List.mem_cons_of_mem l hm)) us v h.2⟩

theorem answerLabelAt_nil : answerLabelAt [] = none := rfl

theorem answerLabelAt_newline (v : List Char) : answerLabelAt ('\n' :: v) = none := by
  unfold answerLabelAt
  rw [if_neg, if_neg]
  · rw [show "CONCLUSION:".data = 'C' :: "ONCLUSION:".data from rfl]
    simp [ciStartsWith_cons_false 'C' _ '\n' v rfl]
  · rw [show "ANSWER:".data = 'A' :: "NSWER:".data from rfl]
    simp [ciStartsWith_cons_false 'A' _ '\n' v rfl]

/-- A conclusion-label occurrence that starts inside `u` and would run past a
newline is impossible; it must lie entirely inside `u`. -/
theorem answerLabelAt_newline_stop (u v : List Char) (L : Nat)
    (h : answerLabelAt (u ++ '\n' :: v) = some L) :
    answerLabelAt u ≠ none := by
  unfold answerLabelAt at h ⊢
  by_cases h1 : ciStartsWith "ANSWER:".data (u ++ '\n' :: v) = true
  · have h2 := ciStartsWith_newline_stop "ANSWER:".data (by decide) u v h1
    rw [if_pos h2]
    simp
  · rw [if_neg h1] at h
    by_cases h3 : ciStartsWith "CONCLUSION:".data (u ++ '\n' :: v) = true
    · have h4 := ciStartsWith_newline_stop "CONCLUSION:".data (by decide) u v h3
      rw [h4]
      by_cases h5 : ciStartsWith "ANSWER:".data u = true
      · rw [if_pos h5]
        simp
      · rw [if_neg h5]
        simp
    · rw [if_neg h3] at h
      cases h

theorem findAnswerLabel_eq_none_drop (l : List Char)
    (h : findAnswerLabel l = none) :
    ∀ k, answerLabelAt (l.drop k) = none := by
  induction l with
  | nil =>
    intro k
    rw [List.drop_nil]
    rfl
  | cons x xs ih =>
    have h1 : answerLabelAt (x :: xs) = none ∧ findAnswerLabel xs = none := by
      cases ha : answerLabelAt (x :: xs) with
      | some len => simp [findAnswerLabel, ha] at h
      | none =>
        cases hf : findAnswerLabel xs with
        | some p => simp [findAnswerLabel, ha, hf] at h
        | none => exact ⟨rfl, rfl⟩
    intro k
    cases k with
    | zero => exact h1.1
    | succ j =>
      rw [List.drop_succ_cons]
      exact ih h1.2 j

theorem drop_append_le {α : Type} : ∀ (n : Nat) (l₁ l₂ : List α),
    n ≤ l₁.length → (l₁ ++ l₂).drop n = l₁.drop n ++ l₂ := by
  intro n
  induction n with
  | zero =>
    intro l₁ l₂ _
    simp
  | succ m ih =>
    intro l₁ l₂ h
    cases l₁ with
    | nil => simp at h
    | cons x xs =>
      simp only [List.cons_append, List.drop_succ_cons]
      exact ih xs l₂ (by simpa using h)

/-- When no conclusion label occurs anywhere in the `xs` region (including
occurrences that would straddle into `ys`), the leftmost label of `xs ++ ys`
is the leftmost label of `ys`, shifted. -/
theorem findAnswerLabel_append (xs ys : List Char)
    (h : ∀ k, k < xs.length → answerLabelAt ((xs ++ ys).drop k) = none) :
    findAnswerLabel (xs ++ ys)
      = (findAnswerLabel ys).map (fun p => (p.1 + xs.length, p.2)) := by
  induction xs with
  | nil =>
    simp only [List.nil_append, List.length_nil]
    cases hf : findAnswerLabel ys with
    | none => rfl
    | some p => simp
  | cons x xs ih =>
    have h0 : answerLabelAt (x :: (xs ++ ys)) = none := by
      have := h 0 (by simp)
      simpa using this
    have hshift : ∀ k, k < xs.length → answerLabelAt ((xs ++ ys).drop k) = none := by
      intro k hk
      have := h (k + 1) (by simp; omega)
      rwa [List.cons_append, List.drop_succ_cons] at this
    rw [List.cons_append]
    simp only [findAnswerLabel, h0, ih hshift]
    cases hf : findAnswerLabel ys with
    | none => rfl
    | some p =>
      simp only [Option.map_some', List.length_cons]
      have : p.1 + xs.length + 1 = p.1 + (xs.length + 1) := by omega
      rw [this]

theorem ciStartsWith_answer_self (rest : List Char) :
    ciStartsWith "ANSWER:".data ("ANSWER:".data ++ rest) = true := rfl

theorem answerLabelAt_answer_self (rest : List Char) :
    answerLabelAt ("ANSWER:".data ++ rest) = some 7 := by
  unfold answerLabelAt
  rw [if_pos (ciStartsWith_answer_self rest)]

theorem findAnswerLabel_answer_self (rest : List Char) :
    findAnswerLabel ("ANSWER:".data ++ rest) = some (0, 7) := by
  have h := answerLabelAt_answer_self rest
  rw [show ("ANSWER:".data ++ rest) = 'A' :: ("NSWER:".data ++ rest) from rfl] at h ⊢
  simp only [findAnswerLabel, h]

theorem drop_append_add {α : Type} (l₁ l₂ : List α) (n : Nat) :
    (l₁ ++ l₂).drop (l₁.length + n) = l₂.drop n := by
  induction l₁ with
  | nil => simp
  | cons x xs ih =>
    simp only [List.cons_append, List.length_cons]
    rw [show xs.length + 1 + n = (xs.length + n) + 1 from by omega,
      List.drop_succ_cons]
    exact ih

theorem ciStartsWith_thought_self (rest : List Char) :
    ciStartsWith "THOUGHT:".data ("THOUGHT:".data ++ rest) = true := rfl

theorem thoughtLabelAt_thought_self (rest : List Char) :
    thoughtLabelAt ("THOUGHT:".data ++ rest) = some 8 := by
  unfold thoughtLabelAt
  rw [if_pos (ciStartsWith_thought_self rest)]

/-- The central computation of Claim C10: on the canonical re-serialization of
a label-free `thought` and an arbitrary `answer` tail, `CAND_RE.search`
matches at position 0, captures the thought span before the canonical
`ANSWER:` label, and captures everything after it. -/
theorem searchCand_canonical (t rest : List Char)
    (hnl : findAnswerLabel t = none) :
    searchCand ("THOUGHT:".data ++ '\n' :: (t ++ '\n' :: '\n' :: ("ANSWER:".data ++ rest)))
      = some ('\n' :: (t ++ ['\n', '\n']), rest) := by
  have hM : '\n' :: (t ++ '\n' :: '\n' :: ("ANSWER:".data ++ rest))
      = ('\n' :: (t ++ ['\n', '\n'])) ++ ("ANSWER:".data ++ rest) := by
    simp
  have hxslen : ('\n' :: (t ++ ['\n', '\n'])).length = t.length + 3 := by
    simp
  have hshield : ∀ k, k < ('\n' :: (t ++ ['\n', '\n'])).length →
      answerLabelAt ((('\n' :: (t ++ ['\n', '\n'])) ++ ("ANSWER:".data ++ rest)).drop k)
        = none := by
    intro k hk
    rw [hxslen] at hk
    rw [← hM]
    cases k with
    | zero =>
      rw [List.drop_zero]
      exact answerLabelAt_newline _
    | succ j =>
      rw [List.drop_succ_cons]
      by_cases hj : j < t.length
      · rw [drop_append_le j t _ (le_of_lt hj)]
        have hnone := findAnswerLabel_eq_none_drop t hnl j
        cases ha : answerLabelAt
            ((t.drop j) ++ '\n' :: ('\n' :: ("ANSWER:".data ++ rest))) with
        | none => rfl
        | some L => exact absurd hnone (answerLabelAt_newline_stop _ _ L ha)
      · have hj2 : j = t.length ∨ j = t.length + 1 := by omega
        cases hj2 with
        | inl hje =>
          subst hje
          rw [List.drop_left]
          exact answerLabelAt_newline _
        | inr hje =>
          subst hje
          rw [drop_append_add t _ 1]
          rw [show ('\n' :: '\n' :: ("ANSWER:".data ++ rest)).drop 1
              = '\n' :: ("ANSWER:".data ++ rest) from rfl]
          exact answerLabelAt_newline _
  have hfind : findAnswerLabel ('\n' :: (t ++ '\n' :: '\n' :: ("ANSWER:".data ++ rest)))
      = some (t.length + 3, 7) := by
    rw [hM, findAnswerLabel_append _ _ hshield, findAnswerLabel_answer_self rest]
    simp [hxslen]
  have htake : ('\n' :: (t ++ '\n' :: '\n' :: ("ANSWER:".data ++ rest))).take (t.length + 3)
      = '\n' :: (t ++ ['\n', '\n']) := by
    rw [hM, ← hxslen]
    exact List.take_left _ _
  have hdrop2 : ('\n' :: (t ++ '\n' :: '\n' :: ("ANSWER:".data ++ rest))).drop (t.length + 3 + 7)
      = rest := by
    rw [hM]
    rw [show t.length + 3 + 7 = ('\n' :: (t ++ ['\n', '\n'])).length + 7 from by
        rw [hxslen]]
    rw [drop_append_add]
    rfl
  rw [show ("THOUGHT:".data ++ '\n' :: (t ++ '\n' :: '\n' :: ("ANSWER:".data ++ rest)))
      = 'T' :: ("HOUGHT:".data ++ '\n' :: (t ++ '\n' :: '\n' :: ("ANSWER:".data ++ rest)))
      from rfl]
  have hT : thoughtLabelAt
      ('T' :: ("HOUGHT:".data ++ '\n' :: (t ++ '\n' :: '\n' :: ("ANSWER:".data ++ rest))))
      = some 8 :=
    thoughtLabelAt_thought_self ('\n' :: (t ++ '\n' :: '\n' :: ("ANSWER:".data ++ rest)))
  have hdrop8 : ('T' :: ("HOUGHT:".data ++ '\n' :: (t ++ '\n' :: '\n' :: ("ANSWER:".data ++ rest)))).drop 8
      = '\n' :: (t ++ '\n' :: '\n' :: ("ANSWER:".data ++ rest)) := by
    rw [show ('T' :: ("HOUGHT:".data ++ '\n' :: (t ++ '\n' :: '\n' :: ("ANSWER:".data ++ rest))))
        = "THOUGHT:".data ++ ('\n' :: (t ++ '\n' :: '\n' :: ("ANSWER:".data ++ rest)))
        from rfl,
      show (8 : Nat) = ("THOUGHT:".data).length from rfl]
    exact List.drop_left _ _
  simp only [searchCand, hT, hdrop8, hfind, htake, hdrop2]

theorem searchCand_mem (l : List Char) : ∀ g1 g2 : List Char,
    searchCand l = some (g1, g2) → (∀ c ∈ g1, c ∈ l) ∧ (∀ c ∈ g2, c ∈ l) := by
  induction l with
  | nil =>
    intro g1 g2 h
    simp [searchCand] at h
  | cons x xs ih =>
    intro g1 g2 h
    cases hT : thoughtLabelAt (x :: xs) with
    | none =>
      simp only [searchCand, hT] at h
      obtain ⟨h1, h2⟩ := ih g1 g2 h
      exact ⟨fun c hc => List.mem_cons_of_mem x (h1 c hc),
        fun c hc => List.mem_cons_of_mem x (h2 c hc)⟩
    | some len =>
      cases hF : findAnswerLabel ((x :: xs).drop len) with
      | none =>
        simp only [searchCand, hT, hF] at h
        obtain ⟨h1, h2⟩ := ih g1 g2 h
        exact ⟨fun c hc => List.mem_cons_of_mem x (h1 c hc),
          fun c hc => List.mem_cons_of_mem x (h2 c hc)⟩
      | some p =>
        obtain ⟨j, len2⟩ := p
        simp only [searchCand, hT, hF, Option.some.injEq, Prod.mk.injEq] at h
        obtain ⟨h1, h2⟩ := h
        subst h1
        subst h2
        constructor
        · intro c hc
          exact List.drop_subset len (x :: xs) (List.take_subset j _ hc)
        · intro c hc
          exact List.drop_subset len (x :: xs) (List.drop_subset (j + len2) _ hc)

theorem splitOnNN_cons_generic (c : Char) (rest : List Char)
    (hne : ∀ r, c = '\n' → rest = '\n' :: r → False) :
    splitOnNN (c :: rest) = match splitOnNN rest with
      | [] => [[c]]
      | h :: t => (c :: h) :: t := by
  rw [splitOnNN.eq_def]
  split
  next r heq =>
    simp at heq
  next a r heq =>
    injection heq with h1 h2
    exact (hne r h1 h2).elim
  next a c2 rest2 hx heq =>
    injection heq with h1 h2
    subst h1
    subst h2
    rfl

theorem splitOnNN_mem (l : List Char) : ∀ p ∈ splitOnNN l, ∀ c ∈ p, c ∈ l := by
  induction l using splitOnNN.induct with
  | case1 =>
    intro p hp c hc
    rw [show splitOnNN [] = [[]] from rfl] at hp
    simp at hp
    subst hp
    cases hc
  | case2 rest ih =>
    intro p hp c hc
    rw [show splitOnNN ('\n' :: '\n' :: rest) = [] :: splitOnNN rest from rfl] at hp
    rcases List.mem_cons.mp hp with h | h
    · subst h
      cases hc
    · exact List.mem_cons_of_mem _ (List.mem_cons_of_mem _ (ih p h c hc))
  | case3 c0 rest hne hnil ih =>
    intro p hp c hc
    rw [splitOnNN_cons_generic c0 rest hne, hnil] at hp
    simp at hp
    subst hp
    simp at hc
    subst hc
    exact List.mem_cons_self _ _
  | case4 c0 rest hne h0 t0 hcons ih =>
    intro p hp c hc
    rw [splitOnNN_cons_generic c0 rest hne, hcons] at hp
    rcases List.mem_cons.mp hp with h | h
    · subst h
      rcases List.mem_cons.mp hc with h' | h'
      · subst h'
        exact List.mem_cons_self c rest
      · have hh0 : h0 ∈ splitOnNN rest := by
          rw [hcons]
          exact List.mem_cons_self _ _
        exact List.mem_cons_of_mem _ (ih h0 hh0 c h')
    · have hp0 : p ∈ splitOnNN rest := by
        rw [hcons]
        exact List.mem_cons_of_mem _ h
      exact List.mem_cons_of_mem _ (ih p hp0 c hc)

theorem combinePair_markupFree (p1 p2 : List Char)
    (h1 : markupFree p1) (h2 : markupFree p2) : markupFree (combinePair p1 p2) := by
  intro c hc
  unfold combinePair at hc
  simp only [List.mem_append] at hc
  have hA : ∀ c ∈ "THOUGHT: ".data, isMarkup c = false := by decide
  have hB : ∀ c ∈ "\nANSWER: ".data, isMarkup c = false := by decide
  rcases hc with ((h | h) | h) | h
  · exact hA c h
  · exact h1 c h
  · exact hB c h
  · exact h2 c h

theorem tryPairs_markupFree : ∀ (parts : List (List Char)) (g1 g2 : List Char),
    (∀ p ∈ parts, markupFree p) → tryPairs parts = some (g1, g2) →
    markupFree g1 ∧ markupFree g2 := by
  intro parts
  induction parts with
  | nil =>
    intro g1 g2 _ h
    simp [tryPairs] at h
  | cons p1 ps ih =>
    intro g1 g2 hparts h
    cases ps with
    | nil => simp [tryPairs] at h
    | cons p2 rest =>
      cases hs : searchCand (combinePair p1 p2) with
      | some r =>
        have hval : tryPairs (p1 :: p2 :: rest) = some r := by
          rw [show tryPairs (p1 :: p2 :: rest)
              = match searchCand (combinePair p1 p2) with
                | some r => some r
                | none => tryPairs (p2 :: rest) from rfl, hs]
        rw [hval] at h
        injection h with hr
        subst hr
        have hm := searchCand_mem (combinePair p1 p2) g1 g2 hs
        have hcp := combinePair_markupFree p1 p2
          (hparts p1 (List.mem_cons_self _ _))
          (hparts p2 (List.mem_cons_of_mem _ (List.mem_cons_self _ _)))
        exact ⟨fun c hc => hcp c (hm.1 c hc), fun c hc => hcp c (hm.2 c hc)⟩
      | none =>
        have hval : tryPairs (p1 :: p2 :: rest) = tryPairs (p2 :: rest) := by
          rw [show tryPairs (p1 :: p2 :: rest)
              = match searchCand (combinePair p1 p2) with
                | some r => some r
                | none => tryPairs (p2 :: rest) from rfl, hs]
        rw [hval] at h
        exact ih g1 g2 (fun p hp => hparts p (List.mem_cons_of_mem _ hp)) h

/-- Every parsed candidate is built by `mkCand` from two markup-free spans. -/
theorem parse_candidate_shape (s : String) (c : Candidate)
    (h : parse_candidate s = some c) :
    ∃ g1 g2, markupFree g1 ∧ markupFree g2 ∧ c = mkCand g1 g2 := by
  simp only [parse_candidate] at h
  have hmt0 : markupFree ((stripList s.data).filter (fun ch => !isMarkup ch)) := by
    intro ch hch
    have := List.of_mem_filter hch
    simpa using this
  cases hs : searchCand ((stripList s.data).filter (fun ch => !isMarkup ch)) with
  | some g =>
    obtain ⟨g1, g2⟩ := g
    simp only [hs] at h
    injection h with h'
    have hm := searchCand_mem _ g1 g2 hs
    exact ⟨g1, g2, fun ch hch => hmt0 ch (hm.1 ch hch),
      fun ch hch => hmt0 ch (hm.2 ch hch), h'.symm⟩
  | none =>
    simp only [hs] at h
    cases hp : tryPairs (splitOnNN ((stripList s.data).filter (fun ch => !isMarkup ch))) with
    | none =>
      simp only [hp] at h
      exact (Option.noConfusion h)
    | some g =>
      obtain ⟨g1, g2⟩ := g
      simp only [hp] at h
      injection h with h'
      have hparts : ∀ p ∈ splitOnNN ((stripList s.data).filter (fun ch => !isMarkup ch)),
          markupFree p :=
        fun p hp' ch hch => hmt0 ch (splitOnNN_mem _ p hp' ch hch)
      have hm := tryPairs_markupFree _ g1 g2 hparts hp
      exact ⟨g1, g2, hm.1, hm.2, h'.symm⟩

/-- The text fields of every parsed candidate are whitespace-normal and free
of markup characters. -/
theorem parse_candidate_fields (s : String) (c : Candidate)
    (h : parse_candidate s = some c) :
    NormOut c.thought.data ∧ NormOut c.answer.data ∧
    markupFree c.thought.data ∧ markupFree c.answer.data := by
  obtain ⟨g1, g2, hm1, hm2, rfl⟩ := parse_candidate_shape s c h
  refine ⟨normSpan_normOut g1, normSpan_normOut g2, ?_, ?_⟩
  · intro ch hch
    rcases normSpan_mem g1 ch hch with h' | h'
    · subst h'
      rfl
    · exact hm1 ch h'
  · intro ch hch
    rcases normSpan_mem g2 ch hch with h' | h'
    · subst h'
      rfl
    · exact hm2 ch h'

theorem getLast?_append_ne {α : Type} (l₁ l₂ : List α) (h : l₂ ≠ []) :
    (l₁ ++ l₂).getLast? = l₂.getLast? := by
  induction l₁ with
  | nil => rw [List.nil_append]
  | cons x xs ih =>
    have hne : xs ++ l₂ ≠ [] := by
      intro hh
      exact h ((List.append_eq_nil.mp hh).2)
    rw [List.cons_append, getLast?_cons_of_ne x _ hne, ih]

theorem stripTrailing_allWs (ss : List Char) (h : ∀ c ∈ ss, isSpace c = true) :
    stripTrailing ss = [] := by
  induction ss with
  | nil => rfl
  | cons x xs ih =>
    have hx := h x (List.mem_cons_self x xs)
    rw [stripTrailing_cons_nil x xs (ih (fun c hc => h c (List.mem_cons_of_mem x hc))),
      if_pos hx]

theorem stripTrailing_append_allWs (l ss : List Char)
    (h : ∀ c ∈ ss, isSpace c = true) :
    stripTrailing (l ++ ss) = stripTrailing l := by
  induction l with
  | nil =>
    rw [List.nil_append, stripTrailing_allWs ss h]
    rfl
  | cons x xs ih =>
    rw [List.cons_append]
    simp only [stripTrailing, ih]

theorem normSpan_thought_group (t : List Char) (ht : NormOut t) :
    normSpan ('\n' :: (t ++ ['\n', '\n'])) = String.mk t := by
  unfold normSpan collapseWs stripList
  rw [List.dropWhile_cons_of_pos (by rfl : isSpace '\n' = true)]
  cases t with
  | nil => rfl
  | cons c ts =>
    have hhead : isSpace c = false := ht.head_nws c rfl
    rw [List.cons_append, List.dropWhile_cons_of_neg (by simp [hhead])]
    rw [← List.cons_append, stripTrailing_append_allWs (c :: ts) ['\n', '\n'] (by decide)]
    rw [stripTrailing_eq_self _ ht.last_nws]
    rw [(collapseGo_id _ ht.ws_space ht.chain ht.last_nws).1]

theorem normSpan_answer_group (a : List Char) (ha : NormOut a) :
    normSpan ('\n' :: a) = String.mk a := by
  unfold normSpan collapseWs stripList
  rw [List.dropWhile_cons_of_pos (by rfl : isSpace '\n' = true)]
  rw [dropWhile_eq_self_of_head a ha.head_nws]
  rw [stripTrailing_eq_self a ha.last_nws]
  rw [(collapseGo_id a ha.ws_space ha.chain ha.last_nws).1]

theorem mkRaw_data_canonical (t a : List Char) :
    (mkRaw (String.mk t) (String.mk a)).data
      = "THOUGHT:".data ++ '\n' :: (t ++ '\n' :: '\n' :: ("ANSWER:".data ++ '\n' :: a)) := by
  rw [mkRaw_data]
  rw [show ("THOUGHT:\n".data : List Char) = "THOUGHT:".data ++ ['\n'] from rfl]
  rw [show ("\n\nANSWER:\n".data : List Char)
      = '\n' :: '\n' :: ("ANSWER:".data ++ ['\n']) from rfl]
  rw [show (String.mk t).data = t from rfl, show (String.mk a).data = a from rfl]
  simp [List.append_assoc]

theorem head_nws_raw (X : List Char) :
    ∀ c, ("THOUGHT:".data ++ X).head? = some c → isSpace c = false := by
  intro c hc
  rw [show ("THOUGHT:".data ++ X) = 'T' :: ("HOUGHT:".data ++ X) from rfl] at hc
  simp only [List.head?_cons, Option.some.injEq] at hc
  subst hc
  rfl

theorem last_colon_raw (t : List Char) :
    ∀ c, ("THOUGHT:".data ++ '\n' :: (t ++ '\n' :: '\n' :: "ANSWER:".data)).getLast?
        = some c → isSpace c = false := by
  intro c hc
  rw [show ("THOUGHT:".data ++ '\n' :: (t ++ '\n' :: '\n' :: "ANSWER:".data))
      = ("THOUGHT:".data ++ '\n' :: (t ++ ['\n', '\n'])) ++ "ANSWER:".data from by
      simp] at hc
  rw [getLast?_append_ne _ _ (by decide)] at hc
  rw [show (("ANSWER:".data : List Char)).getLast? = some ':' from rfl] at hc
  injection hc with hc
  subst hc
  rfl

theorem last_raw_of_answer (t a : List Char)
    (ha : ∀ c, a.getLast? = some c → isSpace c = false) (hne : a ≠ []) :
    ∀ c, ("THOUGHT:".data ++ '\n' :: (t ++ '\n' :: '\n' :: ("ANSWER:".data ++ '\n' :: a))).getLast?
        = some c → isSpace c = false := by
  intro c hc
  rw [show ("THOUGHT:".data ++ '\n' :: (t ++ '\n' :: '\n' :: ("ANSWER:".data ++ '\n' :: a)))
      = ("THOUGHT:".data ++ '\n' :: (t ++ '\n' :: '\n' :: ("ANSWER:".data ++ ['\n']))) ++ a
      from by simp] at hc
  rw [getLast?_append_ne _ _ hne] at hc
  exact ha c hc

theorem markupFree_raw (t rest : List Char) (hmt : markupFree t)
    (hmr : markupFree rest) :
    ∀ c ∈ ("THOUGHT:".data ++ '\n' :: (t ++ '\n' :: '\n' :: ("ANSWER:".data ++ rest))),
      isMarkup c = false := by
  intro c hc
  simp only [List.mem_append, List.mem_cons] at hc
  rcases hc with h | h | h | h | h | h | h
  · rcases h with h | h | h | h | h | h | h | h | h <;>
      first
        | (subst h; rfl)
        | cases h
  · subst h
    rfl
  · exact hmt c h
  · subst h
    rfl
  · subst h
    rfl
  · rcases h with h | h | h | h | h | h | h | h <;>
      first
        | (subst h; rfl)
        | cases h
  · exact hmr c h

/-- Parsing the canonical re-serialization of a whitespace-normal, markup-free
thought/answer pair whose thought carries no conclusion label reproduces the
pair exactly. -/
theorem parse_candidate_canonical (t a : List Char) (ht : NormOut t)
    (ha : NormOut a) (hmt : markupFree t) (hma : markupFree a)
    (hnl : findAnswerLabel t = none) :
    parse_candidate (mkRaw (String.mk t) (String.mk a))
      = some { thought := String.mk t, answer := String.mk a,
               raw := mkRaw (String.mk t) (String.mk a) } := by
  by_cases hae : a = []
  · subst hae
    have hsplit : ("THOUGHT:".data ++ '\n' :: (t ++ '\n' :: '\n' :: ("ANSWER:".data ++ '\n' :: ([] : List Char))))
        = ("THOUGHT:".data ++ '\n' :: (t ++ '\n' :: '\n' :: "ANSWER:".data)) ++ ['\n'] := by
      simp
    have hstrip : stripList ("THOUGHT:".data ++ '\n' :: (t ++ '\n' :: '\n' :: ("ANSWER:".data ++ '\n' :: ([] : List Char))))
        = "THOUGHT:".data ++ '\n' :: (t ++ '\n' :: '\n' :: ("ANSWER:".data ++ ([] : List Char))) := by
      unfold stripList
      rw [dropWhile_eq_self_of_head _ (head_nws_raw _), hsplit,
        stripTrailing_append_allWs _ ['\n'] (by decide),
        stripTrailing_eq_self _ (last_colon_raw t)]
      simp
    have hmfnil : markupFree ([] : List Char) := by
      intro c hc
      cases hc
    have hmf := markupFree_raw t [] hmt hmfnil
    have hfil : ("THOUGHT:".data ++ '\n' :: (t ++ '\n' :: '\n' :: ("ANSWER:".data ++ ([] : List Char)))).filter
        (fun c => !isMarkup c)
        = "THOUGHT:".data ++ '\n' :: (t ++ '\n' :: '\n' :: ("ANSWER:".data ++ ([] : List Char))) :=
      List.filter_eq_self.mpr (fun c hc => by simp [hmf c hc])
    have hsearch := searchCand_canonical t [] hnl
    simp only [parse_candidate]
    rw [mkRaw_data_canonical t [], hstrip, hfil]
    simp only [hsearch]
    rw [show mkCand ('\n' :: (t ++ ['\n', '\n'])) ([] : List Char)
        = { thought := normSpan ('\n' :: (t ++ ['\n', '\n'])),
            answer := normSpan ([] : List Char),
            raw := mkRaw (normSpan ('\n' :: (t ++ ['\n', '\n'])))
                     (normSpan ([] : List Char)) } from rfl,
      normSpan_thought_group t ht]
    rfl
  · have hstrip : stripList ("THOUGHT:".data ++ '\n' :: (t ++ '\n' :: '\n' :: ("ANSWER:".data ++ '\n' :: a)))
        = "THOUGHT:".data ++ '\n' :: (t ++ '\n' :: '\n' :: ("ANSWER:".data ++ '\n' :: a)) :=
      stripList_eq_self _ (head_nws_raw _) (last_raw_of_answer t a ha.last_nws hae)
    have hmr : markupFree ('\n' :: a) := by
      intro c hc
      rcases List.mem_cons.mp hc with h | h
      · subst h
        rfl
      · exact hma c h
    have hmf := markupFree_raw t ('\n' :: a) hmt hmr
    have hfil : ("THOUGHT:".data ++ '\n' :: (t ++ '\n' :: '\n' :: ("ANSWER:".data ++ '\n' :: a))).filter
        (fun c => !isMarkup c)
        = "THOUGHT:".data ++ '\n' :: (t ++ '\n' :: '\n' :: ("ANSWER:".data ++ '\n' :: a)) :=
      List.filter_eq_self.mpr (fun c hc => by simp [hmf c hc])
    have hsearch := searchCand_canonical t ('\n' :: a) hnl
    simp only [parse_candidate]
    rw [mkRaw_data_canonical t a, hstrip, hfil]
    simp only [hsearch]
    rw [show mkCand ('\n' :: (t ++ ['\n', '\n'])) ('\n' :: a)
        = { thought := normSpan ('\n' :: (t ++ ['\n', '\n'])),
            answer := normSpan ('\n' :: a),
            raw := mkRaw (normSpan ('\n' :: (t ++ ['\n', '\n'])))
                     (normSpan ('\n' :: a)) } from rfl,
      normSpan_thought_group t ht, normSpan_answer_group a ha]

/-- Claim C9: the question is classified as a truth-assessment task exactly
when it contains one of the fixed keywords as a case-insensitive substring,
and the pair is reported consistent exactly when the remote response, after
trimming, begins with `YES` case-insensitively. -/
theorem check_semantic_consistency_spec (question answer response : String) :
    (is_truth_assessment question = true ↔
      ∃ k ∈ truthKeywords, ∃ p m r,
        question.data = p ++ m ++ r ∧ m.map toLow = k.data) ∧
    ((check_semantic_consistency question answer response).1 = true ↔
      ∃ c1 c2 c3 rest, stripList response.data = c1 :: c2 :: c3 :: rest ∧
        toUp c1 = 'Y' ∧ toUp c2 = 'E' ∧ toUp c3 = 'S') := by
  constructor
  · unfold is_truth_assessment
    rw [List.any_eq_true]
    constructor
    · rintro ⟨k, hk, hc⟩
      refine ⟨k, hk, ?_⟩
      exact (map_decompose toLow question.data k.data).mp
        ((containsSeq_iff k.data (question.data.map toLow)).mp hc)
    · rintro ⟨k, hk, p, m, r, hq, hm⟩
      exact ⟨k, hk, (containsSeq_iff k.data (question.data.map toLow)).mpr
        ((map_decompose toLow question.data k.data).mpr ⟨p, m, r, hq, hm⟩)⟩
  · exact starts_yes_iff response

/-! ### Claim C10 -/

/-- Claim C10: parsing is idempotent through canonicalization — for every
Candidate returned by the parser whose `thought` field contains no conclusion
label (`ANSWER:` or `CONCLUSION:`, case-insensitively), re-parsing the
candidate's canonical `raw` text succeeds and returns a Candidate with the
same `thought`, `answer` and `raw` fields. -/
theorem parse_candidate_idempotent (s : String) (c : Candidate)
    (hp : parse_candidate s = some c)
    (hlbl : findAnswerLabel c.thought.data = none) :
    parse_candidate c.raw = some c := by
  obtain ⟨hnt, hna, hmt, hma⟩ := parse_candidate_fields s c hp
  have hraw := parse_candidate_raw_eq s c hp
  have h := parse_candidate_canonical c.thought.data c.answer.data hnt hna hmt hma hlbl
  rw [show String.mk c.thought.data = c.thought from rfl,
    show String.mk c.answer.data = c.answer from rfl] at h
  rw [hraw, h, ← hraw]

/-- Claim C10, witness: re-parsing the canonical `raw` of the candidate parsed
from `"THOUGHT: x\n\nANSWER: y"` returns the same candidate. -/
theorem parse_candidate_idempotent_witness :
    parse_candidate "THOUGHT:\nx\n\nANSWER:\ny"
      = some { thought := "x", answer := "y", raw := "THOUGHT:\nx\n\nANSWER:\ny" } :=
  parse_candidate_idempotent "THOUGHT: x\n\nANSWER: y"
    { thought := "x", answer := "y", raw := "THOUGHT:\nx\n\nANSWER:\ny" }
    (by rfl) (by rfl)

end Gendo
